import Mathlib

/-!
Verification of the PassiveTracers subsystem of UWGeodynamics
(file UWGeodynamics/_utils.py).

The Python data flow is embedded as executable Lean definitions:
numpy arrays become lists of rationals, in-place mutation becomes
explicit state passing, and raised exceptions become error values.
Floating-point trigonometry is abstracted by passing the cosine and
sine functions as parameters.
-/

/-! ### Identity codec  (PassiveTracers.__init__, lines 86 to 92)

The source zips `ranks = np.repeat(rank, n)` with
`indices = np.arange(n)` into a structured array of two int32 fields
`a` (the rank) and `b` (the slot) and reinterprets it as int64 via
`pairs.view(np.int64)`.  On a little-endian machine the field `a`
occupies the low 32 bits, so for the non-negative in-range values the
source produces, the packed identity of rank r and slot i is
r + 2^32 * i. -/

def packIndexPair (r i : ℕ) : ℕ := r + 2 ^ 32 * i

def unpackIndexPair (g : ℕ) : ℕ × ℕ := (g % 2 ^ 32, g / 2 ^ 32)

/-- Identities assigned on one partition of rank r with n local markers:
slot indices 0 .. n-1, each packed with the rank. -/
def seedIdentities (r n : ℕ) : List ℕ := (List.range n).map (packIndexPair r)

/-- The (rank, slot) pairs over all partitions: ranks counted from p,
one entry of cs per partition giving its local marker count. -/
def rankSlotPairs : ℕ → List ℕ → List (ℕ × ℕ)
  | _, [] => []
  | p, c :: cs => ((List.range c).map (fun i => (p, i))) ++ rankSlotPairs (p + 1) cs

/-- All identities assigned across partitions with local counts cs. -/
def allIdentities (cs : List ℕ) : List ℕ :=
  (rankSlotPairs 0 cs).map (fun x => packIndexPair x.1 x.2)

theorem seedIdentities_eq_pairs (r n : ℕ) :
    seedIdentities r n = ((List.range n).map (fun i => (r, i))).map
      (fun x => packIndexPair x.1 x.2) := by
  simp [seedIdentities]

theorem unpack_pack (r i : ℕ) (h : r < 2 ^ 32) :
    unpackIndexPair (packIndexPair r i) = (r, i) := by
  unfold unpackIndexPair packIndexPair
  rw [Nat.add_mul_mod_self_left, Nat.mod_eq_of_lt h,
      Nat.add_mul_div_left _ _ (by norm_num : (0:ℕ) < 2 ^ 32),
      Nat.div_eq_of_lt h, Nat.zero_add]

theorem rankSlotPairs_fst_bounds (cs : List ℕ) :
    ∀ (p : ℕ), ∀ x ∈ rankSlotPairs p cs, p ≤ x.1 ∧ x.1 < p + cs.length := by
  induction cs with
  | nil => intro p x hx; simp [rankSlotPairs] at hx
  | cons c cs ih =>
    intro p x hx
    simp only [rankSlotPairs, List.mem_append, List.mem_map, List.mem_range] at hx
    rcases hx with ⟨i, _, rfl⟩ | hx
    · simp only [List.length_cons]; omega
    · have := ih (p + 1) x hx
      simp only [List.length_cons]
      omega

theorem rankSlotPairs_snd_mem (cs : List ℕ) :
    ∀ (p : ℕ), ∀ x ∈ rankSlotPairs p cs, ∃ c ∈ cs, x.2 < c := by
  induction cs with
  | nil => intro p x hx; simp [rankSlotPairs] at hx
  | cons c cs ih =>
    intro p x hx
    simp only [rankSlotPairs, List.mem_append, List.mem_map, List.mem_range] at hx
    rcases hx with ⟨i, hi, rfl⟩ | hx
    · exact ⟨c, List.mem_cons_self c cs, hi⟩
    · obtain ⟨c', hc', hlt⟩ := ih (p + 1) x hx
      exact ⟨c', List.mem_cons_of_mem c hc', hlt⟩

theorem rankSlotPairs_nodup (cs : List ℕ) : ∀ (p : ℕ), (rankSlotPairs p cs).Nodup := by
  induction cs with
  | nil => intro p; simp [rankSlotPairs]
  | cons c cs ih =>
    intro p
    refine List.Nodup.append ?_ (ih (p + 1)) ?_
    · refine List.Nodup.map ?_ (List.nodup_range c)
      intro a b h
      simpa using h
    · intro x hx hy
      simp only [List.mem_map, List.mem_range] at hx
      obtain ⟨i, _, rfl⟩ := hx
      have := (rankSlotPairs_fst_bounds cs (p + 1) _ hy).1
      omega

/-- C3: every marker identity is assigned once at seeding as
pack(partition, slot); across any partition layout the identities are
pairwise distinct, fit in 64 bits, and decoding recovers the original
(partition, slot) pair. -/
theorem global_index_identities_unique_and_decodable (cs : List ℕ)
    (hlen : cs.length ≤ 2 ^ 32) (hcnt : ∀ c ∈ cs, c ≤ 2 ^ 32) :
    (allIdentities cs).Nodup ∧
    (∀ x ∈ rankSlotPairs 0 cs, unpackIndexPair (packIndexPair x.1 x.2) = x) ∧
    (∀ x ∈ rankSlotPairs 0 cs, packIndexPair x.1 x.2 < 2 ^ 64) := by
  have hb := rankSlotPairs_fst_bounds cs 0
  refine ⟨List.Nodup.map_on ?_ (rankSlotPairs_nodup cs 0), ?_, ?_⟩
  · intro x hx y hy hxy
    obtain ⟨x1, x2⟩ := x
    obtain ⟨y1, y2⟩ := y
    have hx1 : x1 < 2 ^ 32 := by have := (hb _ hx).2; omega
    have hy1 : y1 < 2 ^ 32 := by have := (hb _ hy).2; omega
    have h2 : unpackIndexPair (packIndexPair x1 x2) =
        unpackIndexPair (packIndexPair y1 y2) := by
      simpa using congrArg unpackIndexPair hxy
    rwa [unpack_pack _ _ hx1, unpack_pack _ _ hy1] at h2
  · intro x hx
    obtain ⟨x1, x2⟩ := x
    exact unpack_pack _ _ (by have := (hb _ hx).2; omega)
  · intro x hx
    have h1 : x.1 < 2 ^ 32 := by have := (hb _ hx).2; omega
    obtain ⟨c, hc, hlt⟩ := rankSlotPairs_snd_mem cs 0 x hx
    have h2 : x.2 < 2 ^ 32 := lt_of_lt_of_le hlt (hcnt c hc)
    unfold packIndexPair
    omega

theorem global_index_identities_witness :
    ([2, 3] : List ℕ).length ≤ 2 ^ 32 ∧ (∀ c ∈ ([2, 3] : List ℕ), c ≤ 2 ^ 32) ∧
    ((allIdentities [2, 3]).Nodup ∧
     (∀ x ∈ rankSlotPairs 0 [2, 3], unpackIndexPair (packIndexPair x.1 x.2) = x) ∧
     (∀ x ∈ rankSlotPairs 0 [2, 3], packIndexPair x.1 x.2 < 2 ^ 64)) :=
  ⟨by decide, by decide,
   global_index_identities_unique_and_decodable [2, 3] (by decide) (by decide)⟩

/-! ### Tensor rotation kernel  (rotateTensor2D, lines 638 to 660)

The source copies its argument (`t_ = t.copy()`), writes the rotated
components of the symmetric tensor rows [xx, yy, xy] into the copy and
returns the copy; the argument buffer is only read.  The embedding
returns a pair: first the final contents of the argument buffer, then
the returned fresh array.  np.cos and np.sin are floating point and
are passed as the parameters cosF and sinF. -/

def rotLaw (cosF sinF : ℚ → ℚ) (row : List ℚ) (th : ℚ) : List ℚ :=
  let xx := row.getD 0 0
  let yy := row.getD 1 0
  let xy := row.getD 2 0
  [xx * cosF th ^ 2 + yy * sinF th ^ 2 + xy * sinF (2 * th),
   xx * sinF th ^ 2 + yy * cosF th ^ 2 - xy * sinF (2 * th),
   (yy - xx) * cosF th * sinF th + xy * cosF (2 * th)]

def rotateTensor2D (cosF sinF : ℚ → ℚ) (t : List (List ℚ)) (theta : List ℚ) :
    List (List ℚ) × List (List ℚ) :=
  (t, List.zipWith (rotLaw cosF sinF) t theta)

/-- C10: rotateTensor2D never mutates its argument: the argument buffer
after the call holds its original contents, and the rotated components
are returned in a fresh array, so a caller discarding the return value
observes no rotation of its data. -/
theorem rotateTensor2D_pure (cosF sinF : ℚ → ℚ) (t : List (List ℚ)) (theta : List ℚ) :
    (rotateTensor2D cosF sinF t theta).1 = t ∧
    (rotateTensor2D cosF sinF t theta).2 = List.zipWith (rotLaw cosF sinF) t theta :=
  ⟨rfl, rfl⟩

/-! ### Time integration of tracked fields
(PassiveTracers.integrate, lines 108 to 118)

For a field with timeIntegration set, a 2-D mesh and a storage of more
than two components, the source evaluates dtheta = dt times the
angular velocity, calls rotateTensor2D on the view data[:, 0:3] as a
bare statement (the returned fresh array is dropped, leaving the view
buffer as the call left it) and then adds the sampler value to the
first three columns; otherwise it adds sampler value times dt to the
whole storage.  The sampler evaluation (increment) and the dtheta
array arrive as inputs, having been produced by external evaluate
calls. -/

def fieldIntegrationStep (cosF sinF : ℚ → ℚ) (dim count : ℕ) (timeIntegration : Bool)
    (dt : ℚ) (dtheta : List ℚ) (increment storage : List (List ℚ)) :
    List (List ℚ) :=
  if timeIntegration then
    if dim = 2 ∧ 2 < count then
      let view := storage.map (fun row => row.take 3)
      let viewAfter := (rotateTensor2D cosF sinF view dtheta).1
      let storageAfter := List.zipWith (fun row v3 => v3 ++ row.drop 3) storage viewAfter
      List.zipWith (fun row inc =>
        List.zipWith (fun a b => a + b) (row.take 3) inc ++ row.drop 3) storageAfter increment
    else
      List.zipWith (List.zipWith (fun a b => a + b * dt)) storage increment
  else storage

/-- Cosine at the angle tags used in the failing input: tag 1 stands
for the angle pi over two and tag 2 for pi. -/
def rotCos (th : ℚ) : ℚ := if th = 1 then 0 else if th = 2 then -1 else 1

/-- Sine at the same angle tags: sine at pi over two is 1, sine at pi is 0. -/
def rotSin (th : ℚ) : ℚ := if th = 1 then 1 else 0

/-- C1: the claim fails on the code: in the tensor branch the rotated
array returned by rotateTensor2D is discarded, so after integrate the
storage equals the old value plus the increment with no rotation
applied; at storage [1,0,0], rotation angle pi over two and increment
zero the code keeps [1,0,0] although the rotated tensor is [0,1,0]. -/
theorem integrate_tensor_rotation_discarded :
    fieldIntegrationStep rotCos rotSin 2 3 true 1 [1] [[0, 0, 0]] [[1, 0, 0]]
      = [[1, 0, 0]] ∧
    (rotateTensor2D rotCos rotSin [[1, 0, 0]] [1]).2 = [[0, 1, 0]] ∧
    ([[(1:ℚ), 0, 0]] : List (List ℚ)) ≠ [[0, 1, 0]] := by
  refine ⟨?_, ?_, by simp⟩
  · simp [fieldIntegrationStep, rotateTensor2D]
  · simp [rotateTensor2D, rotLaw, rotCos, rotSin]

/-- C4: a time-integrated field that is not classified as a 2-D
symmetric tensor (storage of at most two components, or mesh not 2-D)
is updated by integrate to storage + increment * dt, elementwise per
marker. -/
theorem integrate_nonTensor_accumulates_dt (cosF sinF : ℚ → ℚ) (dim count : ℕ)
    (dt : ℚ) (dtheta : List ℚ) (increment storage : List (List ℚ))
    (h : ¬(dim = 2 ∧ 2 < count)) :
    fieldIntegrationStep cosF sinF dim count true dt dtheta increment storage
      = List.zipWith (List.zipWith (fun a b => a + b * dt)) storage increment := by
  simp [fieldIntegrationStep, h]

theorem integrate_nonTensor_accumulates_dt_witness :
    ¬((2:ℕ) = 2 ∧ 2 < (1:ℕ)) ∧
    fieldIntegrationStep rotCos rotSin 2 1 true 2 [] [[(5:ℚ)]] [[1]] = [[11]] := by
  refine ⟨by decide, ?_⟩
  have h := integrate_nonTensor_accumulates_dt rotCos rotSin 2 1 2 [] [[(5:ℚ)]] [[1]]
    (by decide)
  rw [h]
  norm_num

/-! ### Vertical-axis-only advection scope
(PassiveTracers.integrate, lines 96 to 106)

With zOnly set the source copies the velocity field data, zeroes every
non-last component with `data[:, :-1] = 0`, synchronises, runs the
external advector on the modified field, then writes the saved copy
back and synchronises again.  There is no exception handler around the
advector call, so when the advector raises, the restoring assignment
is never executed.  The advector is an input of the embedding, a
function from the current field data to either new marker positions or
an error; the embedding returns the advection outcome together with
the final contents of the shared velocity field. -/

def zeroNonLast (row : List ℚ) : List ℚ :=
  row.mapIdx (fun i x => if i + 1 = row.length then x else 0)

def integrateZOnly (adv : List (List ℚ) → Except String (List (List ℚ)))
    (velData : List (List ℚ)) :
    Except String (List (List ℚ)) × List (List ℚ) :=
  let saved := velData
  let zeroed := velData.map zeroNonLast
  match adv zeroed with
  | Except.ok newpos => (Except.ok newpos, saved)
  | Except.error e => (Except.error e, zeroed)

/-- C2 fails on the code: with the velocity field [[2, 3]] and an
advector that raises, integrate propagates the error while the shared
velocity field is left as [[0, 3]], which differs from its pre-call
contents [[2, 3]]; no restoration happens on the error path. -/
theorem integrate_zOnly_error_cex :
    integrateZOnly (fun _ => Except.error "advection failed") [[2, 3]]
      = (Except.error "advection failed", [[0, 3]]) ∧
    ([[(0:ℚ), 3]] : List (List ℚ)) ≠ [[2, 3]] := by
  constructor
  · simp [integrateZOnly, zeroNonLast]
  · simp

/-- C2 amended: restoration of the shared velocity field happens only
when the advection step succeeds; if the advector raises, the error
propagates with the field left in the zeroed state, every non-last
component of every node value replaced by zero. -/
theorem integrate_zOnly_error_leaves_zeroed
    (adv : List (List ℚ) → Except String (List (List ℚ)))
    (velData : List (List ℚ)) (e : String)
    (h : adv (velData.map zeroNonLast) = Except.error e) :
    integrateZOnly adv velData = (Except.error e, velData.map zeroNonLast) := by
  simp [integrateZOnly, h]

theorem integrate_zOnly_error_leaves_zeroed_witness :
    ((fun (_ : List (List ℚ)) => (Except.error "boom" : Except String (List (List ℚ))))
        ([[2, 3]].map zeroNonLast) = Except.error "boom") ∧
    integrateZOnly (fun _ => Except.error "boom") [[2, 3]]
      = (Except.error "boom", [[2, 3]].map zeroNonLast) :=
  ⟨rfl, integrate_zOnly_error_leaves_zeroed _ [[2, 3]] "boom" rfl⟩

/-! ### Second-order advection of the external SwarmAdvector

Modelled from the spec: the advector `uw.systems.SwarmAdvector` with
order 2 is an external collaborator, absent from the source; the spec
describes it as a predictor-corrector scheme: estimate velocity at the
start position, take a half-step, resample velocity at the midpoint,
and apply the full-step displacement using the midpoint velocity.
Field evaluation at a position is likewise external interpolation and
is passed as the parameter evalF. -/

def advectStep (evalF : List (List ℚ) → List ℚ → List ℚ)
    (d : List (List ℚ)) (dt : ℚ) (p : List ℚ) : List ℚ :=
  let v1 := evalF d p
  let mid := List.zipWith (fun a b => a + dt / 2 * b) p v1
  let v2 := evalF d mid
  List.zipWith (fun a b => a + dt * b) p v2

/-- C6: for a vertical-only swarm over the uniform velocity field
(2, 3), one successful integrate step of dt = 1 leaves the horizontal
coordinate of every marker unchanged, raises the vertical coordinate
by 3, and returns the shared velocity field bit-identical to its
pre-call contents. -/
theorem integrate_zOnly_vertical_advection
    (evalF : List (List ℚ) → List ℚ → List ℚ) (n : ℕ) (ps : List (List ℚ))
    (h0 : ∀ p, evalF (List.replicate n [2, 3]) p = [2, 3])
    (h1 : ∀ p, evalF ((List.replicate n [2, 3]).map zeroNonLast) p = [0, 3])
    (hp : ∀ p ∈ ps, ∃ x y : ℚ, p = [x, y]) :
    integrateZOnly
        (fun d => Except.ok (ps.map (advectStep evalF d 1)))
        (List.replicate n [2, 3])
      = (Except.ok (ps.map (fun p => [p.headD 0, p.getD 1 0 + 3])),
         List.replicate n [2, 3]) := by
  simp only [integrateZOnly]
  refine congrArg (fun l => (Except.ok l, List.replicate n [2, 3])) ?_
  refine List.map_congr_left ?_
  intro p hmem
  obtain ⟨x, y, rfl⟩ := hp p hmem
  have h1' : ∀ q, evalF (List.replicate n (zeroNonLast [2, 3])) q = [0, 3] := by
    intro q
    simpa [List.map_replicate] using h1 q
  simp [advectStep, h1']

theorem integrate_zOnly_vertical_advection_witness :
    integrateZOnly
        (fun d => Except.ok ([[(5:ℚ), 7]].map
          (advectStep (fun dd _ => dd.headD [0, 0]) d 1)))
        (List.replicate 1 [2, 3])
      = (Except.ok ([[(5:ℚ), 7]].map (fun p => [p.headD 0, p.getD 1 0 + 3])),
         List.replicate 1 [2, 3]) := by
  refine integrate_zOnly_vertical_advection (fun dd _ => dd.headD [0, 0]) 1
    [[(5:ℚ), 7]] ?_ ?_ ?_
  · intro p; simp
  · intro p; simp [zeroNonLast]
  · intro p hmem
    simp only [List.mem_singleton] at hmem
    exact ⟨5, 7, hmem⟩

/-! ### Tracked field registry
(PassiveTracers.add_tracked_field, lines 120 to 150)

Registry entries are dicts in the list tracked_field; the per-field
storage is a fresh swarm variable bound onto the object with setattr
under the field name.  The sampler is opaque and is represented by a
numeric identity; the isinstance check always passes for it.  The
source scans entries in order for a matching name or sampler: on the
first match it raises when overwrite is false, otherwise it mutates
that entry in place, allocates a fresh zero-filled variable sized by
the new count and rebinds the attribute; with no match it appends a
new entry and allocates likewise. -/

structure TrackedField where
  value : ℕ
  name : String
  units : String
  timeIntegration : Bool
  dataType : String
deriving DecidableEq, Repr

structure Storage where
  dataType : String
  count : ℕ
  data : List (List ℚ)
deriving DecidableEq, Repr

def zeroStorage (dataType : String) (count nLocal : ℕ) : Storage :=
  ⟨dataType, count, List.replicate nLocal (List.replicate count 0)⟩

def setAttr (attrs : List (String × Storage)) (name : String) (s : Storage) :
    List (String × Storage) :=
  if attrs.any (fun p => p.1 = name) then
    attrs.map (fun p => if p.1 = name then (name, s) else p)
  else attrs ++ [(name, s)]

structure PTState where
  tracked_field : List TrackedField
  attrs : List (String × Storage)
  nLocal : ℕ
deriving DecidableEq, Repr

def matchesEntry (name : String) (value : ℕ) (f : TrackedField) : Bool :=
  f.name = name || f.value = value

def add_tracked_field (st : PTState) (value : ℕ) (name units dataType : String)
    (count : ℕ) (overwrite timeIntegration : Bool) : PTState × Option String :=
  match st.tracked_field.findIdx? (matchesEntry name value) with
  | some i =>
    if !overwrite then
      (st, some (name ++ " name already exist or already tracked with a different name"))
    else
      ({ st with
          tracked_field := st.tracked_field.set i
            ⟨value, name, units, timeIntegration, dataType⟩,
          attrs := setAttr st.attrs name (zeroStorage dataType count st.nLocal) },
       none)
  | none =>
      ({ st with
          tracked_field := st.tracked_field ++
            [⟨value, name, units, timeIntegration, dataType⟩],
          attrs := setAttr st.attrs name (zeroStorage dataType count st.nLocal) },
       none)

/-- C5: when the name or the sampler matches an existing entry, a call
with overwrite false raises the duplicate error and leaves the whole
state, in particular the registry and every storage binding,
unchanged; a call with overwrite true replaces the metadata of the
matched entry in place and rebinds the storage of the given name to a
fresh zero-initialised storage sized by the new dataType and count. -/
theorem add_tracked_field_overwrite_semantics (st : PTState) (value : ℕ)
    (name units dataType : String) (count : ℕ) (timeIntegration : Bool) (i : ℕ)
    (hmatch : st.tracked_field.findIdx? (matchesEntry name value) = some i) :
    add_tracked_field st value name units dataType count false timeIntegration
      = (st, some (name ++ " name already exist or already tracked with a different name")) ∧
    add_tracked_field st value name units dataType count true timeIntegration
      = ({ st with
            tracked_field := st.tracked_field.set i
              ⟨value, name, units, timeIntegration, dataType⟩,
            attrs := setAttr st.attrs name (zeroStorage dataType count st.nLocal) },
         none) ∧
    (zeroStorage dataType count st.nLocal).data
      = List.replicate st.nLocal (List.replicate count 0) ∧
    (zeroStorage dataType count st.nLocal).count = count ∧
    (zeroStorage dataType count st.nLocal).dataType = dataType := by
  refine ⟨?_, ?_, rfl, rfl, rfl⟩
  · simp [add_tracked_field, hmatch]
  · simp [add_tracked_field, hmatch]

theorem add_tracked_field_overwrite_semantics_witness :
    ((PTState.mk [⟨7, "stress", "Pa", true, "double"⟩] [("stress", zeroStorage "double" 3 2)] 2).tracked_field.findIdx?
        (matchesEntry "stress" 9) = some 0) ∧
    (add_tracked_field ⟨[⟨7, "stress", "Pa", true, "double"⟩], [("stress", zeroStorage "double" 3 2)], 2⟩
        9 "stress" "Pa" "float" 1 false false
      = (⟨[⟨7, "stress", "Pa", true, "double"⟩], [("stress", zeroStorage "double" 3 2)], 2⟩,
         some ("stress" ++ " name already exist or already tracked with a different name")) ∧
     add_tracked_field ⟨[⟨7, "stress", "Pa", true, "double"⟩], [("stress", zeroStorage "double" 3 2)], 2⟩
        9 "stress" "Pa" "float" 1 true false
      = (⟨[⟨9, "stress", "Pa", false, "float"⟩], [("stress", zeroStorage "float" 1 2)], 2⟩,
         none) ∧
     (zeroStorage "float" 1 2).data = List.replicate 2 (List.replicate 1 0) ∧
     (zeroStorage "float" 1 2).count = 1 ∧
     (zeroStorage "float" 1 2).dataType = "float") := by
  constructor
  · decide
  · have h := add_tracked_field_overwrite_semantics
      ⟨[⟨7, "stress", "Pa", true, "double"⟩], [("stress", zeroStorage "double" 3 2)], 2⟩
      9 "stress" "Pa" "float" 1 false 0 (by decide)
    refine ⟨h.1, ?_, h.2.2.1, h.2.2.2.1, h.2.2.2.2⟩
    rw [h.2.1]
    simp [setAttr, zeroStorage]

/-! ### Checkpoint writer event ordering
(PassiveTracers.save, lines 152 to 220)

The call sequence per partition is embedded as a trace of events: the
collective swarm save; on the coordinator (rank 0) the descriptor
header string; a barrier; the collective global index save plus its
schema string on the coordinator; a barrier; the field loop, each
iteration writing one field dataset and appending its schema string on
the coordinator with no barrier inside the loop; one barrier after the
loop; then on the coordinator the reopening of the positions file,
which raises when the data dataset is absent, otherwise the single
descriptor write; and the final barrier. -/

inductive SaveEv where
  | writeSwarm
  | appendHeader
  | barrier
  | writeIndex
  | appendIndexSchema
  | writeField (name : String)
  | appendFieldSchema (name : String)
  | reopenPositions
  | writeDescriptor
deriving DecidableEq, Repr

def fieldLoopBlock (rnk : ℕ) (fields : List String) : List SaveEv :=
  fields.flatMap (fun f =>
    SaveEv.writeField f :: (if rnk = 0 then [SaveEv.appendFieldSchema f] else []))

def saveHead (rnk : ℕ) : List SaveEv :=
  SaveEv.writeSwarm :: ((if rnk = 0 then [SaveEv.appendHeader] else [])
    ++ [SaveEv.barrier, SaveEv.writeIndex]
    ++ (if rnk = 0 then [SaveEv.appendIndexSchema] else [])
    ++ [SaveEv.barrier])

def saveTrace (rnk : ℕ) (fields : List String) (dataPresent : Bool) :
    Option String × List SaveEv :=
  let pre := saveHead rnk ++ fieldLoopBlock rnk fields ++ [SaveEv.barrier]
  if rnk = 0 then
    if dataPresent then
      (none, pre ++ [SaveEv.reopenPositions, SaveEv.writeDescriptor, SaveEv.barrier])
    else
      (some "Cant find data in file", pre ++ [SaveEv.reopenPositions])
  else (none, pre ++ [SaveEv.barrier])

theorem mem_fieldLoopBlock (rnk : ℕ) (fields : List String) (e : SaveEv)
    (h : e ∈ fieldLoopBlock rnk fields) :
    ∃ f, e = SaveEv.writeField f ∨ e = SaveEv.appendFieldSchema f := by
  simp only [fieldLoopBlock, List.mem_flatMap] at h
  obtain ⟨f, _, hf⟩ := h
  rcases List.mem_cons.mp hf with rfl | hf2
  · exact ⟨f, Or.inl rfl⟩
  · by_cases hr : rnk = 0
    · simp [hr] at hf2
      exact ⟨f, Or.inr hf2⟩
    · simp [hr] at hf2

theorem barrier_not_mem_fieldLoopBlock (rnk : ℕ) (fields : List String) :
    SaveEv.barrier ∉ fieldLoopBlock rnk fields := by
  intro h
  obtain ⟨f, hf | hf⟩ := mem_fieldLoopBlock rnk fields _ h <;> cases hf

/-- A decidable scan: between any two writeField events of the trace
there is at least one barrier.  The flag records whether a barrier is
still needed before the next writeField may appear. -/
def fieldWritesSeparatedAux : Bool → List SaveEv → Bool
  | needB, SaveEv.writeField _ :: rest => !needB && fieldWritesSeparatedAux true rest
  | _, SaveEv.barrier :: rest => fieldWritesSeparatedAux false rest
  | needB, _ :: rest => fieldWritesSeparatedAux needB rest
  | _, [] => true

def fieldWritesSeparated (tr : List SaveEv) : Bool :=
  fieldWritesSeparatedAux false tr

/-- C8 fails on the code: with two registered fields the coordinator
trace has no barrier between the two field dataset writes; the single
barrier of the field phase comes only after the whole loop. -/
theorem save_barrier_per_field_cex :
    fieldWritesSeparated (saveTrace 0 ["a", "b"] true).2 = false := by
  decide

/-- C8 amended: the save trace of every partition consists of the
fixed head, then the field loop block, which contains the dataset
write of every registered field in registration order and no barrier
at all, then a single barrier, then the finalisation tail; so one
barrier separates the whole field loop from finalisation instead of
one barrier per field. -/
theorem save_single_barrier_after_fields (rnk : ℕ) (fields : List String)
    (dataPresent : Bool) :
    (∃ tail, (saveTrace rnk fields dataPresent).2
        = saveHead rnk ++ fieldLoopBlock rnk fields ++ [SaveEv.barrier] ++ tail) ∧
    SaveEv.barrier ∉ fieldLoopBlock rnk fields ∧
    fieldLoopBlock rnk fields
      = fields.flatMap (fun f =>
          SaveEv.writeField f ::
            (if rnk = 0 then [SaveEv.appendFieldSchema f] else [])) := by
  refine ⟨?_, barrier_not_mem_fieldLoopBlock rnk fields, rfl⟩
  unfold saveTrace
  by_cases hr : rnk = 0
  · by_cases hd : dataPresent
    · exact ⟨[SaveEv.reopenPositions, SaveEv.writeDescriptor, SaveEv.barrier],
        by simp [hr, hd]⟩
    · exact ⟨[SaveEv.reopenPositions], by simp [hr, hd]⟩
  · exact ⟨[SaveEv.barrier], by simp [hr]⟩

theorem descriptor_reopen_not_in_loop (rnk : ℕ) (fields : List String) :
    SaveEv.writeDescriptor ∉
        saveHead rnk ++ fieldLoopBlock rnk fields ++ [SaveEv.barrier] ∧
    SaveEv.reopenPositions ∉
        saveHead rnk ++ fieldLoopBlock rnk fields ++ [SaveEv.barrier] := by
  constructor <;>
  · intro h
    simp only [List.mem_append, List.mem_singleton] at h
    rcases h with (h | h) | h
    · by_cases hr : rnk = 0 <;> simp [saveHead, hr] at h
    · obtain ⟨f, hf | hf⟩ := mem_fieldLoopBlock rnk fields _ h <;> cases hf
    · cases h

/-- C9: on a missing data dataset the coordinator raises the fatal
checkpoint error and no descriptor write appears in its trace; when
the dataset is present, the coordinator trace ends with the reopening
of the positions file followed by the single descriptor write and the
final barrier, with neither event occurring earlier, so the
descriptor is written exactly once, after all dataset writes; a
non-coordinator partition never reopens the positions file and never
writes the descriptor. -/
theorem save_descriptor_coordinator_only (fields : List String) (rnk : ℕ)
    (dataPresent : Bool) (hr : rnk ≠ 0) :
    ((saveTrace 0 fields false).1 = some "Cant find data in file" ∧
     SaveEv.writeDescriptor ∉ (saveTrace 0 fields false).2) ∧
    (∃ pre, (saveTrace 0 fields true).2
        = pre ++ [SaveEv.reopenPositions, SaveEv.writeDescriptor, SaveEv.barrier] ∧
      SaveEv.writeDescriptor ∉ pre ∧ SaveEv.reopenPositions ∉ pre) ∧
    SaveEv.writeDescriptor ∉ (saveTrace rnk fields dataPresent).2 ∧
    SaveEv.reopenPositions ∉ (saveTrace rnk fields dataPresent).2 := by
  have hn0 := descriptor_reopen_not_in_loop 0 fields
  have hnr := descriptor_reopen_not_in_loop rnk fields
  refine ⟨⟨by simp [saveTrace], ?_⟩,
    ⟨saveHead 0 ++ fieldLoopBlock 0 fields ++ [SaveEv.barrier],
      by simp [saveTrace], hn0.1, hn0.2⟩, ?_, ?_⟩
  · intro h
    simp only [saveTrace, if_pos rfl, Bool.false_eq_true, if_neg, ite_false] at h
    rcases List.mem_append.mp h with h | h
    · exact hn0.1 h
    · simp at h
  · intro h
    simp only [saveTrace, if_neg hr] at h
    rcases List.mem_append.mp h with h | h
    · exact hnr.1 h
    · simp at h
  · intro h
    simp only [saveTrace, if_neg hr] at h
    rcases List.mem_append.mp h with h | h
    · exact hnr.2 h
    · simp at h

theorem save_descriptor_coordinator_only_witness :
    (1 : ℕ) ≠ 0 ∧
    (((saveTrace 0 ["a"] false).1 = some "Cant find data in file" ∧
      SaveEv.writeDescriptor ∉ (saveTrace 0 ["a"] false).2) ∧
     (∃ pre, (saveTrace 0 ["a"] true).2
         = pre ++ [SaveEv.reopenPositions, SaveEv.writeDescriptor, SaveEv.barrier] ∧
       SaveEv.writeDescriptor ∉ pre ∧ SaveEv.reopenPositions ∉ pre) ∧
     SaveEv.writeDescriptor ∉ (saveTrace 1 ["a"] true).2 ∧
     SaveEv.reopenPositions ∉ (saveTrace 1 ["a"] true).2) :=
  ⟨by decide, save_descriptor_coordinator_only ["a"] 1 true (by decide)⟩

/-! ### Seeding the marker grid  (PassiveTracers.__init__, lines 70 to 80)

The source allocates points = np.zeros((sizes.max(), len(vertices)))
and assigns each per-dimension array into its column with
points[:, dim] = vertices[dim].  Numpy broadcasting accepts this
assignment exactly when the array length equals the column length or
equals one (a scalar or a single-element array repeats along the
column); any other shorter length raises a broadcast error.  The
embedding returns the list of columns, or none for the numpy error. -/

def maxSize (vertices : List (List ℚ)) : ℕ :=
  (vertices.map List.length).foldr max 0

def broadcastColumn (n : ℕ) (xs : List ℚ) : Option (List ℚ) :=
  if xs.length = n then some xs
  else if xs.length = 1 then some (List.replicate n (xs.headD 0))
  else none

def broadcastAll (n : ℕ) : List (List ℚ) → Option (List (List ℚ))
  | [] => some []
  | xs :: rest =>
    match broadcastColumn n xs, broadcastAll n rest with
    | some c, some cols => some (c :: cols)
    | _, _ => none

def buildPoints (vertices : List (List ℚ)) : Option (List (List ℚ)) :=
  broadcastAll (maxSize vertices) vertices

/-- C7 fails on the code: with per-dimension arrays [1, 2] and
[4, 5, 6] the common marker count is 3, but seeding raises a numpy
broadcast error instead of repeating the shorter array; no marker grid
is constructed at all. -/
theorem seed_broadcast_cex :
    maxSize [[1, 2], [4, 5, 6]] = 3 ∧ buildPoints [[1, 2], [4, 5, 6]] = none := by
  constructor
  · rfl
  · rfl

theorem broadcastAll_of_valid (n : ℕ) (vs : List (List ℚ))
    (h : ∀ xs ∈ vs, xs.length = 1 ∨ xs.length = n) :
    broadcastAll n vs = some (vs.map (fun xs =>
      if xs.length = n then xs else List.replicate n (xs.headD 0))) := by
  induction vs with
  | nil => rfl
  | cons x rest ih =>
    have hx := h x (List.mem_cons_self x rest)
    have hrest := fun xs hm => h xs (List.mem_cons_of_mem x hm)
    have hcol : broadcastColumn n x
        = some (if x.length = n then x else List.replicate n (x.headD 0)) := by
      unfold broadcastColumn
      by_cases h2 : x.length = n
      · simp [h2]
      · rcases hx with h1 | h1
        · have h3 : ¬ (1 = n) := by omega
          simp [h1, h2, h3]
        · exact absurd h1 h2
    simp only [broadcastAll]
    rw [hcol, ih hrest]
    rfl

/-- C7 amended: seeding broadcasts each per-dimension coordinate array
to the maximum array length among the dimensions only when every array
has length one (repeated along the column) or exactly the maximum
length; in that case the constructed grid has one column per dimension
of that common length; an array of any other shorter length is a
broadcast error, not a repetition. -/
theorem seed_broadcast_amended (vertices : List (List ℚ))
    (h : ∀ xs ∈ vertices, xs.length = 1 ∨ xs.length = maxSize vertices) :
    buildPoints vertices
      = some (vertices.map (fun xs =>
          if xs.length = maxSize vertices then xs
          else List.replicate (maxSize vertices) (xs.headD 0))) ∧
    ∀ xs ∈ vertices,
      (if xs.length = maxSize vertices then xs
       else List.replicate (maxSize vertices) (xs.headD 0)).length
        = maxSize vertices := by
  refine ⟨broadcastAll_of_valid (maxSize vertices) vertices h, ?_⟩
  intro xs hm
  rcases h xs hm with h1 | h1
  · by_cases h2 : xs.length = maxSize vertices
    · simp [h2]
    · simp [h2]
  · simp [h1]

theorem seed_broadcast_amended_witness :
    (∀ xs ∈ ([[5], [4, 5, 6]] : List (List ℚ)),
        xs.length = 1 ∨ xs.length = maxSize [[5], [4, 5, 6]]) ∧
    (buildPoints [[5], [4, 5, 6]]
        = some (([[5], [4, 5, 6]] : List (List ℚ)).map (fun xs =>
            if xs.length = maxSize [[5], [4, 5, 6]] then xs
            else List.replicate (maxSize [[5], [4, 5, 6]]) (xs.headD 0))) ∧
     ∀ xs ∈ ([[5], [4, 5, 6]] : List (List ℚ)),
        (if xs.length = maxSize [[5], [4, 5, 6]] then xs
         else List.replicate (maxSize [[5], [4, 5, 6]]) (xs.headD 0)).length
          = maxSize [[5], [4, 5, 6]]) := by
  have hh : ∀ xs ∈ ([[5], [4, 5, 6]] : List (List ℚ)),
      xs.length = 1 ∨ xs.length = maxSize [[5], [4, 5, 6]] := by
    intro xs hm
    simp only [List.mem_cons, List.not_mem_nil, or_false] at hm
    rcases hm with rfl | rfl
    · left; rfl
    · right; rfl
  exact ⟨hh, seed_broadcast_amended [[5], [4, 5, 6]] hh⟩
